import Mathlib

/-!
Verification of the CBOR-to-JSON converter in `examples/cbor2cjson.c`
(function `cbor_to_cjson`).

The embedding works at the byte level: C strings are lists of byte values
(`List Nat`, each byte taken modulo 256 where the C type forces it), and the
effect of handing a NUL-terminated buffer to the cJSON API is modelled by
reading the buffer up to its first NUL byte.  Machine integers are `Nat` with
explicit reductions modulo `2 ^ 64` where the C code computes in `uint64_t`.
JSON numbers produced from integer arguments are modelled as the exact integer
passed to `cJSON_CreateNumber`; the final conversion of that argument to a C
`double` is abstracted away (the spec treats integer precision loss as an
accepted lossy boundary), and floating-point payloads are carried opaquely.
-/

set_option autoImplicit false
set_option maxRecDepth 10000

/-- Byte values of a literal ASCII string, used to write the fixed texts that
the C code contains as string literals. -/
def asciiBytes (s : String) : List Nat := s.data.map Char.toNat

/-- Content of a NUL-terminated C string stored in a byte buffer: the bytes up
to (excluding) the first zero byte.  This models every place where the C code
hands a `char*` buffer to the cJSON API, which copies it with C string
functions. -/
def cstring (l : List Nat) : List Nat := l.takeWhile (fun b => decide (b ≠ 0))

/-- Little-endian decimal digits of a natural number; the first argument is
structural fuel, always called with enough of it (see `decimalDigits`). -/
def decimalDigitsAux : Nat → Nat → List Nat
  | _, 0 => []
  | 0, _ + 1 => []
  | fuel + 1, n + 1 => ((n + 1) % 10) :: decimalDigitsAux fuel ((n + 1) / 10)

/-- Little-endian decimal digits of a natural number (empty for zero). -/
def decimalDigits (n : Nat) : List Nat := decimalDigitsAux n n

/-- Bytes printed by `snprintf` for a `%llu` conversion: the decimal digit
characters of the value, most significant first. -/
def decimalBytes (n : Nat) : List Nat :=
  if n = 0 then [48] else (decimalDigits n).reverse.map (fun d => 48 + d)

/-- Character printed for one hexadecimal digit by the `%X` conversion
(uppercase). -/
def hexDigitByte (n : Nat) : Nat := if n < 10 then 48 + n else 55 + n

/-- Bytes printed by `snprintf` for a `%02X` conversion of a byte value:
exactly two uppercase hexadecimal digit characters. -/
def hexPair (b : Nat) : List Nat := [hexDigitByte (b / 16), hexDigitByte (b % 16)]

/-- Overwrite the bytes of `buf` starting at position `pos` with `vs`. -/
def writeBytes : List Nat → Nat → List Nat → List Nat
  | buf, _, [] => buf
  | buf, pos, v :: vs => writeBytes (buf.set pos v) (pos + 1) vs

/-- Effect of `snprintf(&buf[pos], n, ...)` on the buffer when the formatted
text is `formatted`: nothing for `n = 0`, otherwise at most `n - 1` bytes of
the text followed by a terminating NUL byte. -/
def snprintfAt (buf : List Nat) (pos n : Nat) (formatted : List Nat) : List Nat :=
  if n = 0 then buf else writeBytes buf pos (formatted.take (n - 1) ++ [0])

/-- The hex-printing loop of the definite-bytestring branch (lines 32-37 of
`cbor2cjson.c`): for each data byte at index `x`, a `%02X` `snprintf` at
offset `2 * x + 1` with size bound `total - offset - 1`. -/
def hexLoop (total : Nat) : List Nat → Nat → List Nat → List Nat
  | buf, _, [] => buf
  | buf, x, b :: bs =>
      hexLoop total
        (snprintfAt buf (2 * x + 1) (total - (2 * x + 1) - 1) (hexPair (b % 256)))
        (x + 1) bs

/-- The string built for a definite byte string (lines 26-40 of
`cbor2cjson.c`): a buffer of `size * 2 + 2` bytes from `calloc` (zero filled),
byte 0 set to `'b'`, the hex loop run over the data, and the result read as a
C string. -/
def bytestringHexBytes (data : List Nat) : List Nat :=
  let total := data.length * 2 + 2
  cstring (hexLoop total ((List.replicate total 0).set 0 98) 0 data)

/-- The CBOR item model (input of the converter), following §3 of the spec and
the libcbor accessors used by `cbor_to_cjson`.  Byte payloads are byte lists;
stored integers are unsigned 64-bit and are read modulo `2 ^ 64`.  The
`FLOAT_CTRL` major type is split into its control values (booleans, null,
other simple values) and floating-point values, mirroring the
`cbor_float_ctrl_is_ctrl` / `cbor_is_bool` / `cbor_is_null` dispatch;
the floating-point payload is opaque. -/
inductive cbor_item where
  | uint (v : Nat)
  | negint (v : Nat)
  | bytestring_def (data : List Nat)
  | bytestring_indef (chunks : List (List Nat))
  | string_def (data : List Nat)
  | string_indef (chunks : List (List Nat))
  | array (items : List cbor_item)
  | map (pairs : List (cbor_item × cbor_item))
  | tag (value : Nat) (child : cbor_item)
  | ctrl_bool (b : Bool)
  | ctrl_null
  | ctrl_other (v : Nat)
  | float (payload : Nat)

/-- The cJSON value model (output of the converter).  Strings and object keys
are the byte content of the C strings handed to cJSON; `num` holds the exact
integer argument given to `cJSON_CreateNumber` (conversion to `double`
abstracted), and `numFloat` carries a pass-through floating-point payload
opaquely. -/
inductive cJSON where
  | num (v : Int)
  | numFloat (payload : Nat)
  | str (s : List Nat)
  | bool (b : Bool)
  | null
  | arr (items : List cJSON)
  | obj (entries : List (List Nat × cJSON))

/-- Modelled from the spec: `cJSON_AddItemToObject` belongs to the external
cJSON library, whose source is not part of this repository.  Per §3 and §7 of
the spec, inserting under a key that is already present silently overwrites
the earlier entry (last write wins), and a new key is appended in order. -/
def insertKV (entries : List (List Nat × cJSON)) (k : List Nat) (v : cJSON) :
    List (List Nat × cJSON) :=
  if entries.any (fun e => decide (e.1 = k)) then
    entries.map (fun e => if e.1 = k then (k, v) else e)
  else entries ++ [(k, v)]

/-- Key computed for one map pair (lines 66-79 of `cbor2cjson.c`): the 128-byte
buffer first receives the surrogate key text, is overwritten by the first
`min(length, 127)` bytes of a definite string key (then NUL terminated), is
overwritten by the decimal text of an unsigned integer key, and is finally
read as a C string by `cJSON_AddItemToObject`. -/
def mapKeyBytes (i : Nat) (k : cbor_item) : List Nat :=
  let key0 := (asciiBytes "Surrogate key " ++ decimalBytes i).take 127
  let key1 :=
    match k with
    | .string_def data => (data.map (fun b => b % 256)).take 127
    | _ => key0
  let key2 :=
    match k with
    | .uint v => (decimalBytes (v % 2 ^ 64)).take 127
    | _ => key1
  cstring key2

mutual

/-- Embedding of `cbor_to_cjson` (lines 19-106 of `cbor2cjson.c`).  Note that
the `NEGINT` branch reproduces the C arithmetic of `-1 - cbor_get_int(item)`:
`cbor_get_int` returns `uint64_t`, so the subtraction happens in `uint64_t`
and yields `2 ^ 64 - 1 - m`. -/
def cbor_to_cjson : cbor_item → cJSON
  | .uint v => .num (Int.ofNat (v % 2 ^ 64))
  | .negint v => .num (Int.ofNat (2 ^ 64 - 1 - v % 2 ^ 64))
  | .bytestring_def data => .str (bytestringHexBytes data)
  | .bytestring_indef _ => .str (asciiBytes "Unsupported CBOR item: Chunked Bytestring")
  | .string_def data => .str (cstring (data.map (fun b => b % 256)))
  | .string_indef _ => .str (asciiBytes "Unsupported CBOR item: Chunked string")
  | .array items => .arr (convArray items)
  | .map pairs => .obj (convMap [] 0 pairs)
  | .tag t child =>
      .obj (insertKV []
        (cstring ((asciiBytes "tag_" ++ decimalBytes (t % 2 ^ 64)).take 127))
        (cbor_to_cjson child))
  | .ctrl_bool b => .bool b
  | .ctrl_null => .null
  | .ctrl_other _ => .str (asciiBytes "Unsupported CBOR item: Control value")
  | .float payload => .numFloat payload
termination_by item => sizeOf item

/-- The array loop (lines 56-60): children converted and appended in index
order (`cJSON_AddItemToArray` appends). -/
def convArray : List cbor_item → List cJSON
  | [] => []
  | x :: xs => cbor_to_cjson x :: convArray xs
termination_by l => sizeOf l

/-- The map loop (lines 63-83): for the pair at index `i`, compute the key,
convert the value, and insert into the accumulated object. -/
def convMap : List (List Nat × cJSON) → Nat → List (cbor_item × cbor_item) →
    List (List Nat × cJSON)
  | acc, _, [] => acc
  | acc, i, (k, v) :: rest =>
      convMap (insertKV acc (mapKeyBytes i k) (cbor_to_cjson v)) (i + 1) rest
termination_by _ _ ps => sizeOf ps

end

/-- The key/value data that the map loop inserts, pair by pair, starting at
index `i`: computed key and converted value for each pair, in order. -/
def keyedFrom : Nat → List (cbor_item × cbor_item) → List (List Nat × cJSON)
  | _, [] => []
  | i, (k, v) :: rest => (mapKeyBytes i k, cbor_to_cjson v) :: keyedFrom (i + 1) rest

/-- Repeated `insertKV` of a list of key/value entries into an object. -/
def insertAll : List (List Nat × cJSON) → List (List Nat × cJSON) →
    List (List Nat × cJSON)
  | acc, [] => acc
  | acc, e :: l => insertAll (insertKV acc e.1 e.2) l

/-- Example array from §8 of the spec: `[1, "a", true]`. -/
def arrayExample : List cbor_item :=
  [.uint 1, .string_def (asciiBytes "a"), .ctrl_bool true]

/-- Example map whose two pairs produce the same output key `"5"`: an
unsigned-integer key `5` followed by a definite text-string key `"5"`. -/
def collidingMapExample : List (cbor_item × cbor_item) :=
  [(.uint 5, .ctrl_bool true), (.string_def (asciiBytes "5"), .ctrl_null)]

/-- Example definite text-string key content of 130 `'a'` bytes, longer than
the 127-byte key buffer limit. -/
def longKeyExample : List Nat := List.replicate 130 97

/-! ### Helper lemmas about decimal printing -/

theorem decimalDigitsAux_congr :
    ∀ (n f1 f2 : Nat), n ≤ f1 → n ≤ f2 →
      decimalDigitsAux f1 n = decimalDigitsAux f2 n := by
  intro n
  induction n using Nat.strong_induction_on with
  | _ n ih =>
    intro f1 f2 h1 h2
    match n, f1, f2 with
    | 0, f1, f2 => cases f1 <;> cases f2 <;> simp [decimalDigitsAux]
    | m + 1, g1 + 1, g2 + 1 =>
      simp only [decimalDigitsAux]
      have hdiv : (m + 1) / 10 < m + 1 := Nat.div_lt_self (Nat.succ_pos m) (by omega)
      have hle : (m + 1) / 10 ≤ m := Nat.lt_succ_iff.mp hdiv
      exact congrArg _ (ih ((m + 1) / 10) hdiv g1 g2 (by omega) (by omega))

theorem decimalDigits_succ (n : Nat) (h : 0 < n) :
    decimalDigits n = n % 10 :: decimalDigits (n / 10) := by
  match n, h with
  | m + 1, _ =>
    show decimalDigitsAux (m + 1) (m + 1) = _
    simp only [decimalDigitsAux, decimalDigits]
    have hdiv : (m + 1) / 10 < m + 1 := Nat.div_lt_self (Nat.succ_pos m) (by omega)
    exact congrArg _ (decimalDigitsAux_congr _ m _ (Nat.lt_succ_iff.mp hdiv) le_rfl)

theorem decimalDigits_lt_ten :
    ∀ (n d : Nat), d ∈ decimalDigits n → d < 10 := by
  intro n
  induction n using Nat.strong_induction_on with
  | _ n ih =>
    intro d hd
    match n with
    | 0 => simp [decimalDigits, decimalDigitsAux] at hd
    | m + 1 =>
      rw [decimalDigits_succ (m + 1) (Nat.succ_pos m)] at hd
      rcases List.mem_cons.mp hd with h | h
      · subst h; exact Nat.mod_lt _ (by omega)
      · exact ih ((m + 1) / 10) (Nat.div_lt_self (Nat.succ_pos m) (by omega)) d h

theorem decimalDigits_length_le :
    ∀ (k n : Nat), n < 10 ^ k → (decimalDigits n).length ≤ k := by
  intro k
  induction k with
  | zero =>
    intro n hn
    have : n = 0 := by simpa using Nat.lt_one_iff.mp (by simpa using hn)
    subst this
    simp [decimalDigits, decimalDigitsAux]
  | succ k ihk =>
    intro n hn
    match n with
    | 0 => simp [decimalDigits, decimalDigitsAux]
    | m + 1 =>
      rw [decimalDigits_succ (m + 1) (Nat.succ_pos m)]
      have hdiv : (m + 1) / 10 < 10 ^ k := by
        rw [Nat.div_lt_iff_lt_mul (by omega)]
        calc m + 1 < 10 ^ (k + 1) := hn
        _ = 10 ^ k * 10 := by rw [Nat.pow_succ]
      simpa using ihk ((m + 1) / 10) hdiv

theorem decimalBytes_mem (n b : Nat) (h : b ∈ decimalBytes n) :
    48 ≤ b ∧ b < 58 := by
  unfold decimalBytes at h
  split at h
  · simp at h; omega
  · rcases List.mem_map.mp h with ⟨d, hd, rfl⟩
    have := decimalDigits_lt_ten n d (List.mem_reverse.mp hd)
    omega

theorem decimalBytes_ne_zero (n b : Nat) (h : b ∈ decimalBytes n) : b ≠ 0 := by
  have := decimalBytes_mem n b h
  omega

theorem decimalBytes_length_le (n : Nat) (h : n < 2 ^ 64) :
    (decimalBytes n).length ≤ 20 := by
  unfold decimalBytes
  split
  · simp
  · have h20 : n < 10 ^ 20 := lt_of_lt_of_le h (by norm_num)
    simpa using decimalDigits_length_le 20 n h20

/-! ### Helper lemmas about C strings and buffers -/

theorem cstring_eq_self (l : List Nat) (h : ∀ b ∈ l, b ≠ 0) : cstring l = l := by
  unfold cstring
  rw [List.takeWhile_eq_self_iff]
  intro x hx
  simpa using h x hx

/-! ### Helper lemmas about the converter loops -/

theorem convArray_eq_map (l : List cbor_item) :
    convArray l = l.map cbor_to_cjson := by
  induction l with
  | nil => simp [convArray]
  | cons x xs ih => simp [convArray, ih]

/-! ### Helper lemmas about object insertion (`insertKV` / `insertAll`) -/

theorem overwrite_keys (k : List Nat) (v : cJSON) :
    ∀ (acc : List (List Nat × cJSON)),
      ((acc.map (fun e => if e.1 = k then (k, v) else e)).map Prod.fst) =
        acc.map Prod.fst := by
  intro acc
  induction acc with
  | nil => rfl
  | cons e rest ih =>
    by_cases he : e.1 = k
    · simp only [List.map_cons, if_pos he, ih]
      rw [he]
    · simp only [List.map_cons, if_neg he, ih]

theorem overwrite_filter_nil (k : List Nat) (v : cJSON)
    (rest : List (List Nat × cJSON)) (hk : k ∉ rest.map Prod.fst) :
    ((rest.map (fun e => if e.1 = k then (k, v) else e)).filter
      (fun e => decide (e.1 = k))) = [] := by
  rw [List.filter_eq_nil_iff]
  intro a ha
  rcases List.mem_map.mp ha with ⟨e, he, rfl⟩
  have hek : ¬(e.1 = k) := fun hek => hk (List.mem_map.mpr ⟨e, he, hek⟩)
  rw [if_neg hek]
  simpa using hek

theorem overwrite_filter_self (k : List Nat) (v : cJSON) :
    ∀ (acc : List (List Nat × cJSON)), (acc.map Prod.fst).Nodup →
      acc.any (fun e => decide (e.1 = k)) = true →
      ((acc.map (fun e => if e.1 = k then (k, v) else e)).filter
        (fun e => decide (e.1 = k))) = [(k, v)] := by
  intro acc
  induction acc with
  | nil => intro _ h; simp at h
  | cons e rest ih =>
    intro hN h
    simp only [List.map_cons, List.nodup_cons] at hN
    by_cases he : e.1 = k
    · simp only [List.map_cons, if_pos he]
      rw [List.filter_cons_of_pos (by simp)]
      rw [overwrite_filter_nil k v rest (he ▸ hN.1)]
    · simp only [List.map_cons, if_neg he]
      rw [List.filter_cons_of_neg (by simpa using he)]
      have hany : rest.any (fun e => decide (e.1 = k)) = true := by
        rcases List.any_eq_true.mp h with ⟨e', he', hke'⟩
        rcases List.mem_cons.mp he' with rfl | he'
        · exact absurd (by simpa using hke') he
        · exact List.any_eq_true.mpr ⟨e', he', hke'⟩
      exact ih hN.2 hany

theorem overwrite_filter_ne (k k' : List Nat) (v : cJSON) (hkk : k' ≠ k) :
    ∀ (acc : List (List Nat × cJSON)),
      ((acc.map (fun e => if e.1 = k then (k, v) else e)).filter
        (fun e => decide (e.1 = k'))) =
        acc.filter (fun e => decide (e.1 = k')) := by
  intro acc
  induction acc with
  | nil => rfl
  | cons e rest ih =>
    by_cases he : e.1 = k
    · simp only [List.map_cons, if_pos he, List.filter_cons]
      have h1 : (decide ((k, v).1 = k')) = false :=
        decide_eq_false (fun hc => hkk (Eq.symm hc))
      have h2 : (decide (e.1 = k')) = false :=
        decide_eq_false (fun hc => hkk (Eq.symm (he ▸ hc)))
      rw [h1, h2]
      simpa using ih
    · simp only [List.map_cons, if_neg he, List.filter_cons]
      cases hd : decide (e.1 = k') with
      | true => simpa using ih
      | false => simpa using ih

theorem insertKV_keys_nodup (acc : List (List Nat × cJSON)) (k : List Nat)
    (v : cJSON) (hN : (acc.map Prod.fst).Nodup) :
    ((insertKV acc k v).map Prod.fst).Nodup := by
  unfold insertKV
  split
  · rw [overwrite_keys k v acc]; exact hN
  · next h =>
    have hk : ∀ e ∈ acc, ¬(e.1 = k) := by
      intro e he
      have := List.any_eq_false.mp (Bool.eq_false_iff.mpr h) e he
      simpa using this
    rw [List.map_append]
    refine List.Nodup.append hN (List.nodup_singleton k) ?_
    intro a ha hb
    rcases List.mem_map.mp ha with ⟨e, he, rfl⟩
    have : e.1 = k := by simpa using hb
    exact hk e he this

theorem insertKV_filter_self (acc : List (List Nat × cJSON)) (k : List Nat)
    (v : cJSON) (hN : (acc.map Prod.fst).Nodup) :
    (insertKV acc k v).filter (fun e => decide (e.1 = k)) = [(k, v)] := by
  unfold insertKV
  split
  · next h => exact overwrite_filter_self k v acc hN h
  · next h =>
    have hnil : acc.filter (fun e => decide (e.1 = k)) = [] := by
      rw [List.filter_eq_nil_iff]
      intro e he
      have := List.any_eq_false.mp (Bool.eq_false_iff.mpr h) e he
      simpa using this
    rw [List.filter_append, hnil]
    simp

theorem insertKV_filter_ne (acc : List (List Nat × cJSON)) (k k' : List Nat)
    (v : cJSON) (hkk : k' ≠ k) :
    (insertKV acc k v).filter (fun e => decide (e.1 = k')) =
      acc.filter (fun e => decide (e.1 = k')) := by
  unfold insertKV
  split
  · exact overwrite_filter_ne k k' v hkk acc
  · rw [List.filter_append]
    have h1 : ([(k, v)].filter (fun e => decide (e.1 = k'))) = [] := by
      simp only [List.filter_cons, List.filter_nil]
      rw [decide_eq_false (fun hc : (k, v).1 = k' => hkk (Eq.symm hc))]
      simp
    rw [h1, List.append_nil]

theorem insertAll_keys_nodup :
    ∀ (l acc : List (List Nat × cJSON)), (acc.map Prod.fst).Nodup →
      ((insertAll acc l).map Prod.fst).Nodup := by
  intro l
  induction l with
  | nil => intro acc h; exact h
  | cons e rest ih =>
    intro acc h
    exact ih (insertKV acc e.1 e.2) (insertKV_keys_nodup acc e.1 e.2 h)

theorem insertAll_filter_of_nil (k : List Nat) :
    ∀ (l acc : List (List Nat × cJSON)),
      l.filter (fun e => decide (e.1 = k)) = [] →
      (insertAll acc l).filter (fun e => decide (e.1 = k)) =
        acc.filter (fun e => decide (e.1 = k)) := by
  intro l
  induction l with
  | nil => intro acc _; rfl
  | cons e rest ih =>
    intro acc hf
    by_cases he : e.1 = k
    · rw [List.filter_cons_of_pos (by simpa using he)] at hf
      exact absurd hf (List.cons_ne_nil e _)
    · rw [List.filter_cons_of_neg (by simpa using he)] at hf
      show (insertAll (insertKV acc e.1 e.2) rest).filter _ = _
      rw [ih (insertKV acc e.1 e.2) hf,
        insertKV_filter_ne acc e.1 k e.2 (fun hc => he hc.symm)]

theorem insertAll_filter_of_getLast (k : List Nat) :
    ∀ (l acc : List (List Nat × cJSON)) (e : List Nat × cJSON),
      (acc.map Prod.fst).Nodup →
      (l.filter (fun e => decide (e.1 = k))).getLast? = some e →
      (insertAll acc l).filter (fun e => decide (e.1 = k)) = [(k, e.2)] := by
  intro l
  induction l with
  | nil => intro acc e _ hL; simp at hL
  | cons e0 rest ih =>
    intro acc e hN hL
    rw [List.filter_cons] at hL
    by_cases he0 : e0.1 = k
    · rw [decide_eq_true he0] at hL
      simp only [if_true] at hL
      by_cases hrest : rest.filter (fun e => decide (e.1 = k)) = []
      · rw [hrest] at hL
        have he : e0 = e := by simpa using hL
        subst he
        show (insertAll (insertKV acc e0.1 e0.2) rest).filter _ = _
        rw [insertAll_filter_of_nil k rest _ hrest, ← he0,
          insertKV_filter_self acc e0.1 e0.2 hN]
      · obtain ⟨a, t, hat⟩ := List.exists_cons_of_ne_nil hrest
        rw [hat, List.getLast?_cons_cons, ← hat] at hL
        exact ih (insertKV acc e0.1 e0.2) e
          (insertKV_keys_nodup acc e0.1 e0.2 hN) hL
    · rw [decide_eq_false he0] at hL
      simp only [Bool.false_eq_true, if_false] at hL
      exact ih (insertKV acc e0.1 e0.2) e
        (insertKV_keys_nodup acc e0.1 e0.2 hN) hL

theorem filter_getLast_index {α : Type} (p : α → Bool) :
    ∀ (l : List α) (e : α), (l.filter p).getLast? = some e →
      ∃ (n : Nat) (hn : n < l.length), l.get ⟨n, hn⟩ = e ∧ p e = true ∧
        ∀ (m : Nat) (hm : m < l.length), n < m → p (l.get ⟨m, hm⟩) = false := by
  intro l
  induction l with
  | nil => intro e hL; simp at hL
  | cons a t ih =>
    intro e hL
    rw [List.filter_cons] at hL
    cases hpa : p a with
    | true =>
      rw [hpa] at hL
      simp only [if_true] at hL
      by_cases ht : t.filter p = []
      · rw [ht] at hL
        have he : a = e := by simpa using hL
        subst he
        refine ⟨0, by simp, rfl, hpa, ?_⟩
        intro m hm hlt
        match m, hm with
        | m' + 1, hm =>
          have hm' : m' < t.length := by simpa using hm
          show p (t.get ⟨m', hm'⟩) = false
          have := List.filter_eq_nil_iff.mp ht (t.get ⟨m', hm'⟩) (t.get_mem _ _)
          simpa using this
      · obtain ⟨b, u, hbu⟩ := List.exists_cons_of_ne_nil ht
        rw [hbu, List.getLast?_cons_cons, ← hbu] at hL
        obtain ⟨n, hn, hget, hpe, hmax⟩ := ih e hL
        refine ⟨n + 1, by simpa using Nat.succ_lt_succ hn, hget, hpe, ?_⟩
        intro m hm hlt
        match m, hm, hlt with
        | m' + 1, hm, hlt =>
          have hm' : m' < t.length := by simpa using hm
          show p (t.get ⟨m', hm'⟩) = false
          exact hmax m' hm' (Nat.lt_of_succ_lt_succ hlt)
    | false =>
      rw [hpa] at hL
      simp only [Bool.false_eq_true, if_false] at hL
      obtain ⟨n, hn, hget, hpe, hmax⟩ := ih e hL
      refine ⟨n + 1, by simpa using Nat.succ_lt_succ hn, hget, hpe, ?_⟩
      intro m hm hlt
      match m, hm, hlt with
      | m' + 1, hm, hlt =>
        have hm' : m' < t.length := by simpa using hm
        show p (t.get ⟨m', hm'⟩) = false
        exact hmax m' hm' (Nat.lt_of_succ_lt_succ hlt)

/-! ### Helper lemmas relating the map loop to the keyed entry list -/

theorem keyedFrom_length :
    ∀ (ps : List (cbor_item × cbor_item)) (i : Nat),
      (keyedFrom i ps).length = ps.length := by
  intro ps
  induction ps with
  | nil => intro i; rfl
  | cons p rest ih =>
    intro i
    match p with
    | (k, v) => simpa [keyedFrom] using ih (i + 1)

theorem keyedFrom_get :
    ∀ (ps : List (cbor_item × cbor_item)) (i n : Nat) (hn : n < ps.length)
      (hn2 : n < (keyedFrom i ps).length),
      (keyedFrom i ps).get ⟨n, hn2⟩ =
        (mapKeyBytes (i + n) (ps.get ⟨n, hn⟩).1,
          cbor_to_cjson (ps.get ⟨n, hn⟩).2) := by
  intro ps
  induction ps with
  | nil => intro i n hn _; simp at hn
  | cons p rest ih =>
    intro i n hn hn2
    match p with
    | (k, v) =>
      match n with
      | 0 => simp [keyedFrom]
      | m + 1 =>
        have hm : m < rest.length := by simpa using hn
        have hm2 : m < (keyedFrom (i + 1) rest).length := by
          rw [keyedFrom_length]; exact hm
        show (keyedFrom (i + 1) rest).get ⟨m, hm2⟩ = _
        rw [ih (i + 1) m hm hm2]
        have : i + 1 + m = i + (m + 1) := by omega
        rw [this]
        rfl

theorem convMap_eq_insertAll :
    ∀ (ps : List (cbor_item × cbor_item)) (acc : List (List Nat × cJSON))
      (i : Nat), convMap acc i ps = insertAll acc (keyedFrom i ps) := by
  intro ps
  induction ps with
  | nil => intro acc i; simp [convMap, keyedFrom, insertAll]
  | cons p rest ih =>
    intro acc i
    match p with
    | (k, v) => simp [convMap, keyedFrom, insertAll, ih]

theorem decimalBytes_cstring (n : Nat) : cstring (decimalBytes n) = decimalBytes n :=
  cstring_eq_self _ (decimalBytes_ne_zero n)

/-! ### Claims -/

/-- C1: the claim states that for every CBOR negative integer of magnitude `m`
the conversion yields the JSON number `-1 - m`, negative for every `m`.  The
code instead computes `-1 - cbor_get_int(item)` in `uint64_t` arithmetic
(`cbor_get_int` returns the unsigned 64-bit magnitude), so at the failing
input `m = 0` the converter produces the JSON number `2 ^ 64 - 1` — a large
positive value, not `-1`. -/
theorem negint_zero_yields_positive :
    cbor_to_cjson (.negint 0) = .num ((2 : Int) ^ 64 - 1) ∧
    ((2 : Int) ^ 64 - 1) ≠ -1 - 0 ∧ (0 : Int) ≤ (2 : Int) ^ 64 - 1 := by
  refine ⟨?_, by norm_num, by norm_num⟩
  simp [cbor_to_cjson]

/-- C2: the claim states that a definite byte string converts to `'b'`
followed by exactly two uppercase hex digits per byte, with `[0x00, 0xFF]`
giving `"b00FF"`.  The code's final `snprintf` receives the size bound
`total - offset - 1 = 2`, which truncates the last byte's hex pair to a
single digit: the converter actually produces `"b00F"`. -/
theorem bytestring_hex_last_byte_truncated :
    cbor_to_cjson (.bytestring_def [0, 255]) = .str (asciiBytes "b00F") ∧
    asciiBytes "b00F" ≠ asciiBytes "b00FF" := by
  refine ⟨?_, by decide⟩
  simp [cbor_to_cjson]
  decide

/-- C4: for every item of the documented variant set the conversion returns
exactly one JSON value, and the three unsupported constructs — indefinite
byte strings, indefinite text strings, and non-boolean non-null control
values — each map to their literal placeholder JSON string rather than to an
error. -/
theorem conversion_total_with_placeholders :
    (∀ item : cbor_item, ∃! j : cJSON, cbor_to_cjson item = j) ∧
    (∀ chunks, cbor_to_cjson (.bytestring_indef chunks) =
      .str (asciiBytes "Unsupported CBOR item: Chunked Bytestring")) ∧
    (∀ chunks, cbor_to_cjson (.string_indef chunks) =
      .str (asciiBytes "Unsupported CBOR item: Chunked string")) ∧
    (∀ v, cbor_to_cjson (.ctrl_other v) =
      .str (asciiBytes "Unsupported CBOR item: Control value")) := by
  refine ⟨fun item => ⟨cbor_to_cjson item, rfl, fun y h => h.symm⟩, ?_, ?_, ?_⟩ <;>
    intro x <;> simp [cbor_to_cjson]

/-- C5 counterexample: the claim states that a definite text string is copied
verbatim, every input byte appearing in the output.  For the content
`[0x68, 0x00, 0x69]` (`"h\0i"`) the NUL-terminated buffer handed to
`cJSON_CreateString` stops at the embedded NUL byte, so the output string is
`[0x68]` and the bytes after the NUL are lost. -/
theorem string_with_nul_not_verbatim :
    cbor_to_cjson (.string_def [104, 0, 105]) = .str [104] ∧
    cJSON.str [104] ≠ cJSON.str [104, 0, 105] := by
  refine ⟨?_, by simp⟩
  simp [cbor_to_cjson]
  decide

/-- C5 amended: a definite text string is copied verbatim provided its content
contains no NUL byte (in general the output is the content up to the first
NUL byte, as the counterexample shows). -/
theorem string_verbatim_no_nul (data : List Nat)
    (h : ∀ b ∈ data, b % 256 ≠ 0) :
    cbor_to_cjson (.string_def data) = .str (data.map (fun b => b % 256)) := by
  have hall : ∀ b ∈ data.map (fun b => b % 256), b ≠ 0 := by
    intro b hb
    rcases List.mem_map.mp hb with ⟨a, ha, rfl⟩
    exact h a ha
  simp [cbor_to_cjson, cstring_eq_self _ hall]

/-- C5 witness: the spec's own example, the text string `"hi"`. -/
theorem string_verbatim_no_nul_witness :
    cbor_to_cjson (.string_def (asciiBytes "hi")) = .str (asciiBytes "hi") := by
  have H := string_verbatim_no_nul (asciiBytes "hi") (by decide)
  rw [H]
  exact congrArg cJSON.str (by decide)

/-- C9: an array converts to a JSON array of the same length whose `i`-th
element is the conversion of the `i`-th child, in original order. -/
theorem array_elementwise (items : List cbor_item) :
    cbor_to_cjson (.array items) = .arr (items.map cbor_to_cjson) ∧
    (items.map cbor_to_cjson).length = items.length ∧
    ∀ (i : Nat) (h : i < items.length) (h2 : i < (items.map cbor_to_cjson).length),
      (items.map cbor_to_cjson).get ⟨i, h2⟩ = cbor_to_cjson (items.get ⟨i, h⟩) := by
  refine ⟨?_, by simp, ?_⟩
  · simp [cbor_to_cjson, convArray_eq_map]
  · intro i h h2
    simp

/-- C9 witness: the spec's example array `[1, "a", true]`, checked at its last
index. -/
theorem array_elementwise_witness :
    cbor_to_cjson (.array arrayExample) = .arr (arrayExample.map cbor_to_cjson) ∧
    (arrayExample.map cbor_to_cjson).get ⟨2, by decide⟩ =
      cbor_to_cjson (arrayExample.get ⟨2, by decide⟩) :=
  ⟨(array_elementwise arrayExample).1,
    (array_elementwise arrayExample).2.2 2 (by decide) (by decide)⟩

/-- C10: a definite byte string of length zero converts to the JSON string
`"b"` — the prefix character alone — which is neither the empty string nor an
error value. -/
theorem empty_bytestring_yields_b :
    cbor_to_cjson (.bytestring_def []) = .str (asciiBytes "b") ∧
    asciiBytes "b" ≠ asciiBytes "" ∧ asciiBytes "b" = [98] := by
  refine ⟨?_, by decide, by decide⟩
  simp [cbor_to_cjson]
  decide

/-- C6 counterexample: the claim states that a definite text-string key of
length `L` gives an object key equal to its first `min(L, 127)` bytes.  For
the two-byte key content `[0x6B, 0x00]` (`"k\0"`), `min(L, 127) = 2`, but the
key buffer is read as a C string and stops at the embedded NUL: the actual
object key is the single byte `[0x6B]`. -/
theorem string_key_nul_truncated :
    cbor_to_cjson (.map [(.string_def [107, 0], .ctrl_null)]) =
      .obj [([107], .null)] ∧ ([107] : List Nat) ≠ [107, 0] := by
  refine ⟨?_, by decide⟩
  simp [cbor_to_cjson, convMap, insertKV]
  decide

/-- C6 amended: for a definite text-string key whose content contains no NUL
byte, the object key is the first `min(L, 127)` bytes of the content: keys of
length at most 127 are used unmodified and longer keys are truncated to
exactly 127 bytes.  (With an embedded NUL byte the key additionally stops at
the first NUL, as the counterexample shows.) -/
theorem string_key_truncated_to_127 (i : Nat) (data : List Nat)
    (h : ∀ b ∈ data, b % 256 ≠ 0) :
    mapKeyBytes i (.string_def data) = (data.map (fun b => b % 256)).take 127 ∧
    (data.length ≤ 127 →
      mapKeyBytes i (.string_def data) = data.map (fun b => b % 256)) ∧
    (127 ≤ data.length → (mapKeyBytes i (.string_def data)).length = 127) := by
  have hall : ∀ b ∈ (data.map (fun b => b % 256)).take 127, b ≠ 0 := by
    intro b hb
    rcases List.mem_map.mp (List.mem_of_mem_take hb) with ⟨a, ha, rfl⟩
    exact h a ha
  have hkey : mapKeyBytes i (.string_def data) =
      (data.map (fun b => b % 256)).take 127 := by
    simp only [mapKeyBytes]
    exact cstring_eq_self _ hall
  refine ⟨hkey, ?_, ?_⟩
  · intro hlen
    rw [hkey]
    exact List.take_of_length_le (by simpa using hlen)
  · intro hlen
    rw [hkey, List.length_take]
    simpa using hlen

/-- C6 witness: a 130-byte key of `'a'` bytes is truncated to exactly 127
bytes. -/
theorem string_key_truncated_witness :
    mapKeyBytes 0 (.string_def longKeyExample) = List.replicate 127 97 ∧
    (mapKeyBytes 0 (.string_def longKeyExample)).length = 127 := by
  have H := string_key_truncated_to_127 0 longKeyExample (by decide)
  exact ⟨H.1.trans (by decide), H.2.2 (by decide)⟩

/-- C7: an unsigned-integer map key `u` produces the decimal string of `u` as
the object key; the integer branch is evaluated after the string branch and
thus decides the key for integer key items, independent of the surrogate
default. -/
theorem uint_key_decimal (i u : Nat) (hu : u < 2 ^ 64) (v : cbor_item) :
    mapKeyBytes i (.uint u) = decimalBytes u ∧
    cbor_to_cjson (.map [(.uint u, v)]) =
      .obj [(decimalBytes u, cbor_to_cjson v)] := by
  have hmod : u % 2 ^ 64 = u := Nat.mod_eq_of_lt hu
  have htake : (decimalBytes u).take 127 = decimalBytes u :=
    List.take_of_length_le (le_trans (decimalBytes_length_le u hu) (by norm_num))
  have hkey : ∀ i' : Nat, mapKeyBytes i' (.uint u) = decimalBytes u := by
    intro i'
    simp only [mapKeyBytes, hmod, htake]
    exact decimalBytes_cstring u
  refine ⟨hkey i, ?_⟩
  have hunfold : cbor_to_cjson (.map [(.uint u, v)]) =
      .obj (insertKV [] (mapKeyBytes 0 (.uint u)) (cbor_to_cjson v)) := by
    simp [cbor_to_cjson, convMap]
  rw [hunfold, hkey 0]
  simp [insertKV]

/-- C7 witness: the spec's example, a map with integer key `5` and value
`true`, giving the object entry `"5" ↦ true`. -/
theorem uint_key_decimal_witness :
    mapKeyBytes 0 (.uint 5) = asciiBytes "5" ∧
    cbor_to_cjson (.map [(.uint 5, .ctrl_bool true)]) =
      .obj [(asciiBytes "5", .bool true)] := by
  have H := uint_key_decimal 0 5 (by norm_num) (.ctrl_bool true)
  have h5 : decimalBytes 5 = asciiBytes "5" := by decide
  have hb : cbor_to_cjson (.ctrl_bool true) = .bool true := by
    simp [cbor_to_cjson]
  exact ⟨H.1.trans h5, H.2.trans (by rw [h5, hb])⟩

/-- C8: a tag item with tag number `t` wrapping a child converts to a JSON
object with exactly one entry, key `tag_` followed by the decimal digits of
`t`, value the recursive conversion of the child. -/
theorem tag_single_entry (t : Nat) (child : cbor_item) (ht : t < 2 ^ 64) :
    cbor_to_cjson (.tag t child) =
      .obj [(asciiBytes "tag_" ++ decimalBytes t, cbor_to_cjson child)] := by
  have hmod : t % 2 ^ 64 = t := Nat.mod_eq_of_lt ht
  have hlen : (asciiBytes "tag_" ++ decimalBytes t).length ≤ 127 := by
    rw [List.length_append]
    have h1 : (asciiBytes "tag_").length = 4 := by decide
    have h2 := decimalBytes_length_le t ht
    omega
  have hne : ∀ b ∈ asciiBytes "tag_" ++ decimalBytes t, b ≠ 0 := by
    intro b hb
    rcases List.mem_append.mp hb with hb | hb
    · have h4 : asciiBytes "tag_" = [116, 97, 103, 95] := by decide
      rw [h4] at hb
      simp at hb
      omega
    · exact decimalBytes_ne_zero t b hb
  have hunfold : cbor_to_cjson (.tag t child) =
      .obj (insertKV []
        (cstring ((asciiBytes "tag_" ++ decimalBytes (t % 2 ^ 64)).take 127))
        (cbor_to_cjson child)) := by
    simp [cbor_to_cjson]
  rw [hunfold, hmod, List.take_of_length_le hlen, cstring_eq_self _ hne]
  simp [insertKV]

/-- C8 witness: the spec's example, tag `7` wrapping `true`, giving
`{"tag_7": true}`. -/
theorem tag_single_entry_witness :
    cbor_to_cjson (.tag 7 (.ctrl_bool true)) =
      .obj [(asciiBytes "tag_7", .bool true)] := by
  have H := tag_single_entry 7 (.ctrl_bool true) (by norm_num)
  have h1 : asciiBytes "tag_" ++ decimalBytes 7 = asciiBytes "tag_7" := by decide
  have h2 : cbor_to_cjson (.ctrl_bool true) = .bool true := by
    simp [cbor_to_cjson]
  rw [H, h1, h2]

/-- C3: output objects never contain duplicate keys, and when two pairs of a
map produce the same output key, the object contains exactly one entry for
that key, holding the converted value of the pair with the greatest index
among those producing that key (last write wins).  This relies on the
spec-modelled overwrite semantics of `cJSON_AddItemToObject` (`insertKV`). -/
theorem map_collision_last_write_wins :
    (∀ ps : List (cbor_item × cbor_item),
      ((convMap [] 0 ps).map Prod.fst).Nodup) ∧
    (∀ (ps : List (cbor_item × cbor_item)) (i j : Nat)
      (hi : i < ps.length) (hj : j < ps.length), i < j →
      mapKeyBytes i (ps.get ⟨i, hi⟩).1 = mapKeyBytes j (ps.get ⟨j, hj⟩).1 →
      ∃ (n : Nat) (hn : n < ps.length), j ≤ n ∧
        mapKeyBytes n (ps.get ⟨n, hn⟩).1 = mapKeyBytes j (ps.get ⟨j, hj⟩).1 ∧
        (∀ (m : Nat) (hm : m < ps.length), n < m →
          mapKeyBytes m (ps.get ⟨m, hm⟩).1 ≠ mapKeyBytes j (ps.get ⟨j, hj⟩).1) ∧
        (convMap [] 0 ps).filter
            (fun e => decide (e.1 = mapKeyBytes j (ps.get ⟨j, hj⟩).1)) =
          [(mapKeyBytes j (ps.get ⟨j, hj⟩).1,
            cbor_to_cjson (ps.get ⟨n, hn⟩).2)]) := by
  constructor
  · intro ps
    rw [convMap_eq_insertAll]
    exact insertAll_keys_nodup (keyedFrom 0 ps) [] (by simp)
  · intro ps i j hi hj hij hkeys
    have hjl : j < (keyedFrom 0 ps).length := by
      rw [keyedFrom_length]; exact hj
    have hil : i < (keyedFrom 0 ps).length := by
      rw [keyedFrom_length]; exact hi
    have hgetj : (keyedFrom 0 ps).get ⟨j, hjl⟩ =
        (mapKeyBytes j (ps.get ⟨j, hj⟩).1, cbor_to_cjson (ps.get ⟨j, hj⟩).2) := by
      have := keyedFrom_get ps 0 j hj hjl
      simpa using this
    have hmem : (keyedFrom 0 ps).get ⟨j, hjl⟩ ∈
        (keyedFrom 0 ps).filter
          (fun e => decide (e.1 = mapKeyBytes j (ps.get ⟨j, hj⟩).1)) := by
      refine List.mem_filter.mpr ⟨List.get_mem _ _ _, ?_⟩
      rw [hgetj]
      simp
    have hne : (keyedFrom 0 ps).filter
        (fun e => decide (e.1 = mapKeyBytes j (ps.get ⟨j, hj⟩).1)) ≠ [] :=
      List.ne_nil_of_mem hmem
    obtain ⟨e, hL⟩ : ∃ e, ((keyedFrom 0 ps).filter
        (fun e => decide (e.1 = mapKeyBytes j (ps.get ⟨j, hj⟩).1))).getLast? =
          some e := by
      cases hcase : ((keyedFrom 0 ps).filter
          (fun e => decide (e.1 = mapKeyBytes j (ps.get ⟨j, hj⟩).1))).getLast? with
      | none => exact absurd (List.getLast?_eq_none_iff.mp hcase) hne
      | some e => exact ⟨e, rfl⟩
    obtain ⟨n, hnl, hget, hpe, hmax⟩ :=
      filter_getLast_index
        (fun e => decide (e.1 = mapKeyBytes j (ps.get ⟨j, hj⟩).1))
        (keyedFrom 0 ps) e hL
    have hn : n < ps.length := by rw [← keyedFrom_length ps 0]; exact hnl
    have hgetn : (keyedFrom 0 ps).get ⟨n, hnl⟩ =
        (mapKeyBytes n (ps.get ⟨n, hn⟩).1, cbor_to_cjson (ps.get ⟨n, hn⟩).2) := by
      have := keyedFrom_get ps 0 n hn hnl
      simpa using this
    have he : e = (mapKeyBytes n (ps.get ⟨n, hn⟩).1,
        cbor_to_cjson (ps.get ⟨n, hn⟩).2) := by rw [← hget, hgetn]
    have hkn : mapKeyBytes n (ps.get ⟨n, hn⟩).1 =
        mapKeyBytes j (ps.get ⟨j, hj⟩).1 := by
      have := hpe
      rw [he] at this
      simpa using this
    have hjn : j ≤ n := by
      by_contra hcon
      have hnj : n < j := Nat.lt_of_not_le hcon
      have := hmax j hjl hnj
      rw [hgetj] at this
      simp at this
    refine ⟨n, hn, hjn, hkn, ?_, ?_⟩
    · intro m hm hnm hkm
      have hml : m < (keyedFrom 0 ps).length := by
        rw [keyedFrom_length]; exact hm
      have hgetm : (keyedFrom 0 ps).get ⟨m, hml⟩ =
          (mapKeyBytes m (ps.get ⟨m, hm⟩).1, cbor_to_cjson (ps.get ⟨m, hm⟩).2) := by
        have := keyedFrom_get ps 0 m hm hml
        simpa using this
      have := hmax m hml hnm
      rw [hgetm] at this
      simp only [decide_eq_false_iff_not] at this
      exact this hkm
    · rw [convMap_eq_insertAll]
      have := insertAll_filter_of_getLast
        (mapKeyBytes j (ps.get ⟨j, hj⟩).1) (keyedFrom 0 ps) [] e (by simp) hL
      rw [this, he]

/-- C3 witness: the two-pair map whose integer key `5` (index 0) and text
string key `"5"` (index 1) produce the same output key; the surviving entry
holds the converted value of the later pair. -/
theorem map_collision_witness :
    ∃ (n : Nat) (hn : n < collidingMapExample.length), 1 ≤ n ∧
      mapKeyBytes n (collidingMapExample.get ⟨n, hn⟩).1 =
        mapKeyBytes 1 (collidingMapExample.get ⟨1, by decide⟩).1 ∧
      (∀ (m : Nat) (hm : m < collidingMapExample.length), n < m →
        mapKeyBytes m (collidingMapExample.get ⟨m, hm⟩).1 ≠
          mapKeyBytes 1 (collidingMapExample.get ⟨1, by decide⟩).1) ∧
      (convMap [] 0 collidingMapExample).filter
          (fun e => decide (e.1 =
            mapKeyBytes 1 (collidingMapExample.get ⟨1, by decide⟩).1)) =
        [(mapKeyBytes 1 (collidingMapExample.get ⟨1, by decide⟩).1,
          cbor_to_cjson (collidingMapExample.get ⟨n, hn⟩).2)] :=
  map_collision_last_write_wins.2 collidingMapExample 0 1 (by decide) (by decide)
    (by decide) (by decide)
